import Mathlib

/-!
Verification development for the MediaFire bulk downloader
(src/python/mediafire.py, src/python/main.py).

The Python source is shallowly embedded: pure helpers become Lean
functions, filesystem and network effects become explicit environment
records, exceptions become the Except monad, and the asyncio event loop
becomes an explicit small-step scheduler over task programs.
-/

/-! ## Filename sanitization (mediafire.py, parse_filename, lines 91-93)

Python: chars = [char if (char.isalnum() or char in "-_. ") else "-" for char in filename]
We read isalnum in its ASCII meaning (Char.isAlphanum). -/

def keepChar (c : Char) : Bool :=
  c.isAlphanum || ("-_. ".toList.contains c)

def sanitizeChar (c : Char) : Char :=
  if keepChar c then c else '-'

def parse_filename (s : String) : String :=
  String.mk (s.data.map sanitizeChar)

theorem parse_filename_data (s : String) :
    (parse_filename s).data = s.data.map sanitizeChar := rfl

theorem parse_filename_length (s : String) :
    (parse_filename s).length = s.length := by
  show (s.data.map sanitizeChar).length = s.data.length
  exact List.length_map s.data sanitizeChar

theorem keepChar_sanitizeChar (c : Char) : keepChar (sanitizeChar c) = true := by
  by_cases h : keepChar c
  · simp [sanitizeChar, h]
  · have h2 : sanitizeChar c = '-' := by simp [sanitizeChar, h]
    rw [h2]
    decide

theorem sanitizeChar_idem (c : Char) : sanitizeChar (sanitizeChar c) = sanitizeChar c := by
  by_cases h : keepChar c
  · simp [sanitizeChar, h]
  · have h2 : sanitizeChar c = '-' := by simp [sanitizeChar, h]
    rw [h2]
    decide

/-- C6: filename sanitization is a total deterministic function that keeps
alphanumerics and the characters -, _, ., space, replaces every other
character by a dash, preserves length, and maps a/b?c.txt to a-b-c.txt. -/
theorem c6_sanitize_spec (s : String) :
    (parse_filename s).length = s.length ∧
    (∀ (i : Nat) (c : Char), s.data[i]? = some c →
      (parse_filename s).data[i]? = some (if keepChar c then c else '-')) ∧
    parse_filename "a/b?c.txt" = "a-b-c.txt" := by
  refine ⟨parse_filename_length s, ?_, by decide⟩
  intro i c hc
  rw [parse_filename_data, List.getElem?_map, hc]
  rfl

/-- C6 witness: the characterization evaluated at the concrete input
a/b?c.txt at index 1 (the slash, which is replaced by a dash). -/
theorem c6_sanitize_spec_witness :
    ("a/b?c.txt".data[1]? = some '/') ∧
    (parse_filename "a/b?c.txt").data[1]? = some (if keepChar '/' then '/' else '-') :=
  ⟨by decide, (c6_sanitize_spec "a/b?c.txt").2.1 1 '/' (by decide)⟩

/-- C9: filename sanitization is idempotent. -/
theorem c9_sanitize_idempotent (s : String) :
    parse_filename (parse_filename s) = parse_filename s := by
  show String.mk ((s.data.map sanitizeChar).map sanitizeChar)
      = String.mk (s.data.map sanitizeChar)
  rw [List.map_map]
  congr 1
  apply List.map_congr_left
  intro c _
  exact sanitizeChar_idem c

/-! ## SHA-256 and hash_file (mediafire.py, hash_file, lines 13-18)

Python reads the file in 1024-byte chunks and feeds each chunk to an
incremental hashlib.sha256 hasher. We embed the hasher in full: the
Merkle-Damgard state keeps the eight 32-bit chaining words, the buffer of
bytes not yet forming a 64-byte block, and the total byte count; update
appends to the buffer and compresses every complete 64-byte block;
hexdigest pads and compresses the remainder. Bytes and words are Nat with
explicit reduction mod 2^32. -/

def w32 (n : Nat) : Nat := n % 4294967296

def rotr32 (n x : Nat) : Nat := w32 ((x >>> n) ||| (x <<< (32 - n)))

def shaCh (x y z : Nat) : Nat := (x &&& y) ^^^ ((x ^^^ 4294967295) &&& z)

def shaMaj (x y z : Nat) : Nat := (x &&& y) ^^^ (x &&& z) ^^^ (y &&& z)

def bigSigma0 (x : Nat) : Nat := rotr32 2 x ^^^ rotr32 13 x ^^^ rotr32 22 x

def bigSigma1 (x : Nat) : Nat := rotr32 6 x ^^^ rotr32 11 x ^^^ rotr32 25 x

def smallSigma0 (x : Nat) : Nat := rotr32 7 x ^^^ rotr32 18 x ^^^ (x >>> 3)

def smallSigma1 (x : Nat) : Nat := rotr32 17 x ^^^ rotr32 19 x ^^^ (x >>> 10)

def shaK : List Nat :=
  [1116352408, 1899447441, 3049323471, 3921009573, 961987163,
   1508970993, 2453635748, 2870763221, 3624381080, 310598401,
   607225278, 1426881987, 1925078388, 2162078206, 2614888103,
   3248222580, 3835390401, 4022224774, 264347078, 604807628,
   770255983, 1249150122, 1555081692, 1996064986, 2554220882,
   2821834349, 2952996808, 3210313671, 3336571891, 3584528711,
   113926993, 338241895, 666307205, 773529912, 1294757372,
   1396182291, 1695183700, 1986661051, 2177026350, 2456956037,
   2730485921, 2820302411, 3259730800, 3345764771, 3516065817,
   3600352804, 4094571909, 275423344, 430227734, 506948616,
   659060556, 883997877, 958139571, 1322822218, 1537002063,
   1747873779, 1955562222, 2024104815, 2227730452, 2361852424,
   2428436474, 2756734187, 3204031479, 3329325298]

def shaH0 : List Nat :=
  [1779033703, 3144134277, 1013904242, 2773480762,
   1359893119, 2600822924, 528734635, 1541459225]

def bytesToWords : List Nat → List Nat
  | b0 :: b1 :: b2 :: b3 :: rest =>
      (b0 * 16777216 + b1 * 65536 + b2 * 256 + b3) :: bytesToWords rest
  | _ => []

def schedStep (w : List Nat) : List Nat :=
  let n := w.length
  let a := w.getD (n - 2) 0
  let b := w.getD (n - 7) 0
  let c := w.getD (n - 15) 0
  let d := w.getD (n - 16) 0
  w ++ [w32 (d + smallSigma0 c + b + smallSigma1 a)]

def fullSchedule (w16 : List Nat) : List Nat :=
  (List.range 48).foldl (fun w _ => schedStep w) w16

def shaRound (st : List Nat) (kw : Nat × Nat) : List Nat :=
  match st with
  | [a, b, c, d, e, f, g, h] =>
      let t1 := w32 (h + bigSigma1 e + shaCh e f g + kw.1 + kw.2)
      let t2 := w32 (bigSigma0 a + shaMaj a b c)
      [w32 (t1 + t2), a, b, c, w32 (d + t1), e, f, g]
  | other => other

def shaCompress (hs : List Nat) (block : List Nat) : List Nat :=
  let w := fullSchedule (bytesToWords block)
  let st := (shaK.zip w).foldl shaRound hs
  (hs.zip st).map (fun p => w32 (p.1 + p.2))

/-- Greedy block consumption with explicit fuel (the fuel is always chosen
at least as large as the number of available bytes, so it never runs out
before the loop condition fails). -/
def chompF : Nat → List Nat → List Nat → List Nat × List Nat
  | 0, hs, buf => (hs, buf)
  | f + 1, hs, buf =>
      if 64 ≤ buf.length then chompF f (shaCompress hs (buf.take 64)) (buf.drop 64)
      else (hs, buf)

def chomp (hs buf : List Nat) : List Nat × List Nat := chompF buf.length hs buf

theorem chompF_of_small (g : Nat) (hs buf : List Nat) (h : ¬ 64 ≤ buf.length) :
    chompF g hs buf = (hs, buf) := by
  cases g with
  | zero => rfl
  | succ f => simp [chompF, h]

theorem chompF_irrel (f : Nat) :
    ∀ (g : Nat) (hs buf : List Nat), buf.length ≤ f → buf.length ≤ g →
      chompF f hs buf = chompF g hs buf := by
  induction f with
  | zero =>
      intro g hs buf hf _
      have hb : buf = [] := List.length_eq_zero.mp (Nat.le_zero.mp hf)
      subst hb
      rw [chompF_of_small g hs [] (by simp)]
      rfl
  | succ f ih =>
      intro g hs buf hf hg
      by_cases h64 : 64 ≤ buf.length
      · obtain ⟨g0, rfl⟩ : ∃ g0, g = g0 + 1 := ⟨g - 1, by omega⟩
        simp only [chompF, h64, if_pos]
        exact ih g0 _ (buf.drop 64) (by simp; omega) (by simp; omega)
      · rw [chompF_of_small _ hs buf h64, chompF_of_small g hs buf h64]

theorem chomp_small (hs buf : List Nat) (h : ¬ 64 ≤ buf.length) :
    chomp hs buf = (hs, buf) := chompF_of_small _ hs buf h

theorem chomp_step (hs buf : List Nat) (h : 64 ≤ buf.length) :
    chomp hs buf = chomp (shaCompress hs (buf.take 64)) (buf.drop 64) := by
  unfold chomp
  obtain ⟨f, hf⟩ : ∃ f, buf.length = f + 1 := ⟨buf.length - 1, by omega⟩
  rw [hf]
  simp only [chompF, h, if_pos]
  exact chompF_irrel f _ _ (buf.drop 64) (by simp; omega) (by simp)

theorem chomp_append (f : Nat) :
    ∀ (hs xs ys : List Nat), xs.length ≤ f →
      chomp (chomp hs xs).1 ((chomp hs xs).2 ++ ys) = chomp hs (xs ++ ys) := by
  induction f with
  | zero =>
      intro hs xs ys hf
      have hb : xs = [] := List.length_eq_zero.mp (Nat.le_zero.mp hf)
      subst hb
      rw [chomp_small hs [] (by simp)]
  | succ f ih =>
      intro hs xs ys hf
      by_cases h64 : 64 ≤ xs.length
      · have h64' : 64 ≤ (xs ++ ys).length := by simp; omega
        rw [chomp_step hs xs h64, chomp_step hs (xs ++ ys) h64',
            List.take_append_of_le_length h64, List.drop_append_of_le_length h64]
        exact ih _ (xs.drop 64) ys (by simp; omega)
      · rw [chomp_small hs xs h64]

theorem chomp_rem_small (f : Nat) :
    ∀ (hs buf : List Nat), buf.length ≤ f → ¬ 64 ≤ (chompF f hs buf).2.length := by
  induction f with
  | zero =>
      intro hs buf hf
      have hb : buf = [] := List.length_eq_zero.mp (Nat.le_zero.mp hf)
      subst hb
      simp [chompF]
  | succ f ih =>
      intro hs buf hf
      by_cases h64 : 64 ≤ buf.length
      · simp only [chompF, h64, if_pos]
        exact ih _ (buf.drop 64) (by simp; omega)
      · rw [chompF_of_small _ hs buf h64]
        exact h64

theorem chomp_rem (hs buf : List Nat) : ¬ 64 ≤ (chomp hs buf).2.length :=
  chomp_rem_small buf.length hs buf (Nat.le_refl _)

/-- Hasher state: chaining words, pending bytes, total bytes consumed. -/
structure H256 where
  hs : List Nat
  buf : List Nat
  total : Nat

def shaInit : H256 := ⟨shaH0, [], 0⟩

def shaUpdate (st : H256) (data : List Nat) : H256 :=
  let r := chomp st.hs (st.buf ++ data)
  ⟨r.1, r.2, st.total + data.length⟩

def beBytes : Nat → Nat → List Nat
  | 0, _ => []
  | k + 1, n => beBytes k (n / 256) ++ [n % 256]

def padBytes (len : Nat) : List Nat :=
  128 :: List.replicate ((64 - ((len + 9) % 64)) % 64) 0 ++ beBytes 8 (8 * len)

def shaDigestWords (st : H256) : List Nat :=
  (chomp st.hs (st.buf ++ padBytes st.total)).1

def hexDigitChar (n : Nat) : Char :=
  if n < 10 then Char.ofNat (48 + n) else Char.ofNat (87 + n)

def hexWord (x : Nat) : List Char :=
  (List.range 8).map (fun i => hexDigitChar ((x >>> (28 - 4 * i)) % 16))

def hexOfWords (ws : List Nat) : String :=
  String.mk (ws.map hexWord).flatten

/-- Single-pass SHA-256 of a whole byte sequence. -/
def sha256Words (msg : List Nat) : List Nat :=
  (chomp shaH0 (msg ++ padBytes msg.length)).1

def sha256Hex (msg : List Nat) : String := hexOfWords (sha256Words msg)

/-- Reading loop of hash_file: iter(lambda: f.read(1024), b"") yields
successive 1024-byte chunks, the last one possibly shorter. -/
def readChunksF : Nat → List Nat → List (List Nat)
  | 0, _ => []
  | f + 1, content =>
      if content.isEmpty then []
      else content.take 1024 :: readChunksF f (content.drop 1024)

def readChunks (content : List Nat) : List (List Nat) :=
  readChunksF content.length content

/-- hash_file on the byte contents of the file: fold the incremental
hasher over the 1024-byte read chunks, then hexdigest. -/
def hash_file_bytes (content : List Nat) : String :=
  hexOfWords (shaDigestWords (List.foldl shaUpdate shaInit (readChunks content)))

theorem shaUpdate_shaUpdate (st : H256) (a b : List Nat) :
    shaUpdate (shaUpdate st a) b = shaUpdate st (a ++ b) := by
  simp only [shaUpdate]
  refine congrArg₂ (fun (p : List Nat × List Nat) (t : Nat) => H256.mk p.1 p.2 t) ?_ (by simp; omega)
  have h := chomp_append (st.buf ++ a).length (st.hs) (st.buf ++ a) b (Nat.le_refl _)
  rw [h, List.append_assoc]

theorem shaUpdate_nil (st : H256) (h : ¬ 64 ≤ st.buf.length) : shaUpdate st [] = st := by
  simp only [shaUpdate, List.append_nil, chomp_small st.hs st.buf h, List.length_nil,
    Nat.add_zero]

theorem shaUpdate_buf_small (st : H256) (a : List Nat) :
    ¬ 64 ≤ (shaUpdate st a).buf.length := chomp_rem _ _

theorem foldl_shaUpdate (cs : List (List Nat)) :
    ∀ st : H256, ¬ 64 ≤ st.buf.length →
      List.foldl shaUpdate st cs = shaUpdate st cs.flatten := by
  induction cs with
  | nil => intro st h; simp [shaUpdate_nil st h]
  | cons c cs ih =>
      intro st h
      simp only [List.foldl_cons, List.flatten_cons]
      rw [ih (shaUpdate st c) (shaUpdate_buf_small st c), shaUpdate_shaUpdate]

theorem shaDigest_shaUpdate_init (msg : List Nat) :
    shaDigestWords (shaUpdate shaInit msg) = sha256Words msg := by
  simp only [shaDigestWords, shaUpdate, shaInit, List.nil_append, Nat.zero_add]
  have h := chomp_append msg.length shaH0 msg (padBytes msg.length) (Nat.le_refl _)
  rw [h]
  rfl

theorem readChunksF_join (f : Nat) :
    ∀ content : List Nat, content.length ≤ f → (readChunksF f content).flatten = content := by
  induction f with
  | zero =>
      intro content hf
      have hb : content = [] := List.length_eq_zero.mp (Nat.le_zero.mp hf)
      subst hb; rfl
  | succ f ih =>
      intro content hf
      by_cases he : content.isEmpty
      · rw [List.isEmpty_iff] at he
        subst he; rfl
      · simp only [readChunksF, if_neg he, List.flatten_cons]
        rw [ih (content.drop 1024) (by simp; omega)]
        exact List.take_append_drop 1024 content

theorem readChunks_join (content : List Nat) : (readChunks content).flatten = content :=
  readChunksF_join content.length content (Nat.le_refl _)

/-- C10: the digest hash_file computes by incremental 1024-byte chunked
SHA-256 updates equals the SHA-256 of the whole contents in one pass, and
the same holds for any other chunking of the contents, so the digest is
independent of chunk boundaries. -/
theorem c10_chunked_digest (content : List Nat) :
    hash_file_bytes content = sha256Hex content ∧
    ∀ chunks : List (List Nat), chunks.flatten = content →
      hexOfWords (shaDigestWords (List.foldl shaUpdate shaInit chunks)) = sha256Hex content := by
  have key : ∀ chunks : List (List Nat), chunks.flatten = content →
      hexOfWords (shaDigestWords (List.foldl shaUpdate shaInit chunks)) = sha256Hex content := by
    intro chunks hj
    rw [foldl_shaUpdate chunks shaInit (by simp [shaInit]), hj,
        shaDigest_shaUpdate_init]
    rfl
  exact ⟨key (readChunks content) (readChunks_join content), key⟩

/-- C10 witness: chunk-boundary independence applied to the concrete
contents 1,2,3 split into the chunks 1,2 and 3. -/
theorem c10_chunked_digest_witness :
    ([[1, 2], [3]] : List (List Nat)).flatten = [1, 2, 3] ∧
    hexOfWords (shaDigestWords (List.foldl shaUpdate shaInit [[1, 2], [3]]))
      = sha256Hex [1, 2, 3] :=
  ⟨by decide, (c10_chunked_digest [1, 2, 3]).2 [[1, 2], [3]] (by decide)⟩

/-! ## Filesystem model and the up-to-date skip check
(mediafire.py, hash_file lines 13-18 and the checks at lines 104 and 127)

A filesystem is an oracle: pathExists models os.path.exists, readBytes
models opening and reading the file and may raise (Except.error) even for
an existing path, as open or read can in Python (permissions, the path
being a directory, races). hash_file has no try/except, so a read error
propagates out of it; the Python skip check
  os.path.exists(filepath) and expected == hash_file(filepath)
short-circuits on existence first. -/

structure FS where
  pathExists : String → Bool
  readBytes : String → Except String (List Nat)

def hash_file (fs : FS) (filepath : String) : Except String String :=
  (fs.readBytes filepath).map hash_file_bytes

def skipCheck (fs : FS) (filepath : String) (expected : String) : Except String Bool :=
  if fs.pathExists filepath then
    (hash_file fs filepath).map (fun d => expected == d)
  else Except.ok false

/-- Concrete filesystem on which the path exists but reading it fails,
as for a path that is a directory or lacks read permission. -/
def fsBad : FS := ⟨fun _ => true, fun _ => Except.error "EACCES"⟩

/-- C4 counterexample: the claim says a read error while digesting is
treated as not up to date and never propagated out of the skip check; on
the concrete filesystem fsBad the check instead propagates the error. -/
theorem c4_counterexample :
    ¬ (∀ (fs : FS) (p expected e : String),
        fs.pathExists p = true → fs.readBytes p = Except.error e →
        skipCheck fs p expected = Except.ok false) := by
  intro h
  have h2 := h fsBad "p" "h" "EACCES" rfl rfl
  simp [skipCheck, hash_file, fsBad, Except.map] at h2

/-- C4 amended: the check is false when the path does not exist; when the
path exists and reading succeeds it is true exactly when the digest equals
the expected hash; but when reading fails the error propagates out of the
skip check instead of being treated as not up to date. -/
theorem c4_skip_check (fs : FS) (p expected : String) :
    (fs.pathExists p = false → skipCheck fs p expected = Except.ok false) ∧
    (∀ c : List Nat, fs.pathExists p = true → fs.readBytes p = Except.ok c →
      (skipCheck fs p expected = Except.ok (expected == hash_file_bytes c) ∧
       (skipCheck fs p expected = Except.ok true ↔ expected = hash_file_bytes c))) ∧
    (∀ e : String, fs.pathExists p = true → fs.readBytes p = Except.error e →
      skipCheck fs p expected = Except.error e) := by
  refine ⟨?_, ?_, ?_⟩
  · intro hne
    simp [skipCheck, hne]
  · intro c hex hread
    have hck : skipCheck fs p expected = Except.ok (expected == hash_file_bytes c) := by
      simp [skipCheck, hex, hash_file, hread, Except.map]
    refine ⟨hck, ?_⟩
    rw [hck]
    constructor
    · intro hok
      exact eq_of_beq (Except.ok.inj hok)
    · intro heq
      subst heq
      simp
  · intro e hex hread
    simp [skipCheck, hex, hash_file, hread, Except.map]

/-- C4 witness: the amended theorem applied to the concrete filesystem
fsBad, where the read error EACCES propagates. -/
theorem c4_skip_check_witness :
    fsBad.pathExists "p" = true ∧ fsBad.readBytes "p" = Except.error "EACCES" ∧
    skipCheck fsBad "p" "h" = Except.error "EACCES" :=
  ⟨rfl, rfl, (c4_skip_check fsBad "p" "h").2.2 "EACCES" rfl rfl⟩

/-! ## dnld_file and the per-unit outcome (mediafire.py, lines 95-106 and
sem_download at lines 166-177)

dnld_file, in source order: fetch the file metadata (may raise), take the
normal_download landing link, resolve the direct link by scraping the
landing page (get_download_url_from_file returns None on any failure),
sanitize the filename, run the skip check (may raise), return True when
skipping, otherwise stream the download (calling download_file with a
None url raises). The Python function returns True on the skip path and
falls off the end (None) after a completed download. sem_download wraps
the unit in try/except Exception and reduces everything to one bool. -/

structure FileData where
  filename : String
  hash : String
  normalDownload : String
deriving DecidableEq

def pathJoin (dir fname : String) : String := dir ++ "/" ++ fname

structure DnldEnv where
  fs : FS
  fileData : Except String FileData
  resolveDirect : String → Option String
  transfer : String → String → Except String Unit
  directory : String

def dnld_file (env : DnldEnv) : Except String (Option Bool) := do
  let fd ← env.fileData
  let firstLink := fd.normalDownload
  let dlink := env.resolveDirect firstLink
  let fname := parse_filename fd.filename
  let filepath := pathJoin env.directory fname
  let skip ← skipCheck env.fs filepath fd.hash
  if skip then
    Except.ok (some true)
  else
    match dlink with
    | none => Except.error "TypeError: url is None"
    | some u => do
        let _ ← env.transfer u filepath
        Except.ok none

/-- The boolean sem_download records for the unit: True unless the unit
raised. -/
def sem_outcome (env : DnldEnv) : Bool :=
  match dnld_file env with
  | Except.ok _ => true
  | Except.error _ => false

/-- The three outcome kinds of the specification, read off from what the
unit actually did. -/
inductive OutcomeKind where
  | completed
  | skipped
  | failed (cause : String)
deriving DecidableEq

def outcomeKind (env : DnldEnv) : OutcomeKind :=
  match dnld_file env with
  | Except.ok (some true) => OutcomeKind.skipped
  | Except.ok _ => OutcomeKind.completed
  | Except.error c => OutcomeKind.failed c

/-- Environment in which the local file is already up to date: the unit
skips. -/
def envSkip : DnldEnv :=
  ⟨⟨fun _ => true, fun _ => Except.ok []⟩,
   Except.ok ⟨"f.txt", hash_file_bytes [], "L"⟩,
   fun _ => some "D", fun _ _ => Except.ok (), "d"⟩

/-- Environment in which no local file exists and the transfer succeeds:
the unit completes a download. -/
def envDone : DnldEnv :=
  ⟨⟨fun _ => false, fun _ => Except.ok []⟩,
   Except.ok ⟨"f.txt", "H", "L"⟩,
   fun _ => some "D", fun _ _ => Except.ok (), "d"⟩

/-- C5 counterexample: the outcome a unit produces does not determine
which of the three kinds occurred: a skipped unit and a completed unit
both yield the same boolean outcome True, so Completed and Skipped are
conflated (and the failure cause is likewise not in the outcome). -/
theorem c5_counterexample :
    ¬ (∀ e1 e2 : DnldEnv, sem_outcome e1 = sem_outcome e2 →
        outcomeKind e1 = outcomeKind e2) := by
  intro h
  have h2 := h envSkip envDone (by decide)
  have h3 : outcomeKind envSkip = OutcomeKind.skipped := by decide
  have h4 : outcomeKind envDone = OutcomeKind.completed := by decide
  rw [h3, h4] at h2
  exact absurd h2 (by decide)

/-- C5 amended: each submitted unit produces exactly one terminal outcome,
but it is a single boolean: True when the unit completed or skipped (the
two are conflated), False when it failed, and the failure cause is
discarded rather than recorded. -/
theorem c5_outcome_is_boolean (env : DnldEnv) :
    sem_outcome env = (match outcomeKind env with
      | OutcomeKind.failed _ => false
      | _ => true) := by
  unfold sem_outcome outcomeKind
  rcases hd : dnld_file env with e | v
  · rfl
  · rcases v with _ | b
    · rfl
    · rcases b <;> rfl

/-! ## Folder expansion: skip loop and queued downloads
(mediafire.py, dnld_folder_items, lines 123-135)

After pagination, the per-file loop walks the concatenated records: for
each one it sanitizes the filename, joins it to the directory, runs the
skip check (whose exceptions propagate out of dnld_folder_items, since
the try only wraps the pagination loop), and either continues (skipping
the record entirely) or appends the normal_download link to urls. A
dnld_file task is then created per queued url and gathered, so the result
list has one entry per queued url only. -/

def isOkE (e : Except String Bool) : Bool :=
  match e with
  | Except.ok _ => true
  | Except.error _ => false

def recordPath (dir : String) (fd : FileData) : String :=
  pathJoin dir (parse_filename fd.filename)

/-- The value the skip condition takes when the check does not raise. -/
def skipBool (fs : FS) (dir : String) (fd : FileData) : Bool :=
  match skipCheck fs (recordPath dir fd) fd.hash with
  | Except.ok b => b
  | Except.error _ => false

def queuedLinks (fs : FS) (dir : String) (records : List FileData) :
    Except String (List String) :=
  records.foldlM (fun urls fd => do
    let skip ← skipCheck fs (recordPath dir fd) fd.hash
    if skip then Except.ok urls
    else Except.ok (urls ++ [fd.normalDownload])) []

/-- Outcome list of the per-folder gather: one boolean per queued url. -/
def folder_outcomes (fs : FS) (dir : String) (records : List FileData)
    (outcomeOf : String → Bool) : Except String (List Bool) :=
  (queuedLinks fs dir records).map (fun urls => urls.map outcomeOf)

/-- Filesystem on which every path exists with empty contents, so a record
whose hash is the digest of the empty file is up to date. -/
def fsEmptyFile : FS := ⟨fun _ => true, fun _ => Except.ok []⟩

/-- C7 counterexample: an up-to-date record does not contribute a Skipped
outcome; it is dropped from the folder's outcome list entirely, so one
up-to-date record yields zero outcomes rather than one. -/
theorem c7_counterexample :
    ¬ (∀ (fs : FS) (dir : String) (records : List FileData)
        (outcomeOf : String → Bool) (outcomes : List Bool),
        folder_outcomes fs dir records outcomeOf = Except.ok outcomes →
        outcomes.length = records.length) := by
  intro h
  have h2 := h fsEmptyFile "d" [⟨"f", hash_file_bytes [], "L"⟩] (fun _ => true) [] rfl
  exact absurd h2 (by decide)

theorem queuedLinks_go (fs : FS) (dir : String) :
    ∀ (records : List FileData) (acc : List String),
      (∀ fd ∈ records, isOkE (skipCheck fs (recordPath dir fd) fd.hash) = true) →
      records.foldlM (fun urls fd => do
        let skip ← skipCheck fs (recordPath dir fd) fd.hash
        if skip then Except.ok urls
        else Except.ok (urls ++ [fd.normalDownload])) acc =
      Except.ok (acc ++ (records.filter
        (fun fd => !(skipBool fs dir fd))).map (fun fd => fd.normalDownload)) := by
  intro records
  induction records with
  | nil => intro acc _; simp; rfl
  | cons fd rest ih =>
      intro acc hok
      have hfd := hok fd (List.mem_cons_self fd rest)
      rcases hck : skipCheck fs (recordPath dir fd) fd.hash with e | b
      · rw [hck] at hfd; simp [isOkE] at hfd
      · have hsb : skipBool fs dir fd = b := by simp [skipBool, hck]
        have hrest : ∀ fd2 ∈ rest, isOkE (skipCheck fs (recordPath dir fd2) fd2.hash) = true :=
          fun fd2 h2 => hok fd2 (List.mem_cons_of_mem fd h2)
        rcases b with _ | _
        · simp only [List.foldlM_cons, hck]
          show rest.foldlM _ (acc ++ [fd.normalDownload]) = _
          rw [ih (acc ++ [fd.normalDownload]) hrest]
          simp [List.filter_cons, hsb]
        · simp only [List.foldlM_cons, hck]
          show rest.foldlM _ acc = _
          rw [ih acc hrest]
          simp [List.filter_cons, hsb]

/-- C7 amended: during folder expansion an up-to-date record is skipped
without being queued (so no dnld_file task and no fetch of its body), and
the queued links are exactly the normal_download links of the stale or
absent records in listing order; but a skipped record contributes no
outcome at all instead of a Skipped outcome. -/
theorem c7_skip_queues_only_stale (fs : FS) (dir : String) (records : List FileData)
    (hok : ∀ fd ∈ records, isOkE (skipCheck fs (recordPath dir fd) fd.hash) = true) :
    queuedLinks fs dir records =
      Except.ok ((records.filter
        (fun fd => !(skipBool fs dir fd))).map (fun fd => fd.normalDownload)) ∧
    ∀ fd ∈ records, skipBool fs dir fd = true →
      fd ∉ records.filter (fun fd2 => !(skipBool fs dir fd2)) := by
  constructor
  · have h := queuedLinks_go fs dir records [] hok
    simpa [queuedLinks] using h
  · intro fd _ hskip hmem
    have h2 := List.of_mem_filter hmem
    rw [hskip] at h2
    exact absurd h2 (by decide)

/-- C7 witness: one up-to-date record (hash of the empty file) and one
absent record; only the stale record's link is queued. -/
theorem c7_skip_queues_only_stale_witness :
    (∀ fd ∈ ([⟨"f", hash_file_bytes [], "LA"⟩, ⟨"g", "XX", "LB"⟩] : List FileData),
      isOkE (skipCheck fsEmptyFile (recordPath "d" fd) fd.hash) = true) ∧
    queuedLinks fsEmptyFile "d" [⟨"f", hash_file_bytes [], "LA"⟩, ⟨"g", "XX", "LB"⟩] =
      Except.ok ((([⟨"f", hash_file_bytes [], "LA"⟩, ⟨"g", "XX", "LB"⟩] : List FileData).filter
        (fun fd => !(skipBool fsEmptyFile "d" fd))).map (fun fd => fd.normalDownload)) :=
  ⟨by decide,
   (c7_skip_queues_only_stale fsEmptyFile "d"
     [⟨"f", hash_file_bytes [], "LA"⟩, ⟨"g", "XX", "LB"⟩] (by decide)).1⟩

/-! ## Folder listing pagination (mediafire.py, dnld_folder_items,
lines 111-122)

The loop starts at chunk 1, fetches the page for the current chunk,
reads more_chunks (the string "yes" means another page follows), extends
data with the page's files, and increments chunk. Any exception makes the
whole function return with no items (the bare except). The while loop has
no bound; we give the embedding explicit fuel and state theorems for
schedules with enough fuel. -/

structure FolderPage where
  more_chunks : String
  files : List FileData
deriving DecidableEq

inductive PagResult where
  | aborted
  | done (files : List FileData)
deriving DecidableEq

def paginate (pages : Nat → Except String FolderPage) :
    Nat → Nat → List FileData → Option PagResult
  | 0, _, _ => none
  | fuel + 1, chunk, acc =>
      match pages chunk with
      | Except.error _ => some PagResult.aborted
      | Except.ok page =>
          let acc2 := acc ++ page.files
          if page.more_chunks == "yes" then paginate pages fuel (chunk + 1) acc2
          else some (PagResult.done acc2)

/-- C8: when the pages at chunks c, c+1, ... are the list ys ++ [lastp],
every page in ys reporting more chunks and lastp reporting no more, the
loop visits exactly those chunks in order and returns the concatenation
of all their files, in fetch order, before any per-file processing. -/
theorem c8_pagination (ys : List FolderPage) (lastp : FolderPage)
    (pages : Nat → Except String FolderPage) :
    ∀ (chunk : Nat) (acc : List FileData) (fuel : Nat),
      ys.length < fuel →
      (∀ (i : Nat) (h : i < ys.length), pages (chunk + i) = Except.ok (ys.get ⟨i, h⟩)) →
      pages (chunk + ys.length) = Except.ok lastp →
      (∀ p ∈ ys, p.more_chunks == "yes") →
      ((lastp.more_chunks == "yes") = false) →
      paginate pages fuel chunk acc =
        some (PagResult.done (acc ++ (ys.map (fun p => p.files)).flatten ++ lastp.files)) := by
  induction ys with
  | nil =>
      intro chunk acc fuel hfuel hys hlast hmore hstop
      obtain ⟨f, rfl⟩ : ∃ f, fuel = f + 1 := ⟨fuel - 1, by omega⟩
      have hc : pages chunk = Except.ok lastp := by simpa using hlast
      simp [paginate, hc, hstop]
  | cons p rest ih =>
      intro chunk acc fuel hfuel hys hlast hmore hstop
      obtain ⟨f, rfl⟩ : ∃ f, fuel = f + 1 := ⟨fuel - 1, by omega⟩
      have hc : pages chunk = Except.ok p := by
        have := hys 0 (by simp)
        simpa using this
      have hpm : (p.more_chunks == "yes") = true := hmore p (List.mem_cons_self p rest)
      simp only [paginate, hc, hpm, if_pos]
      rw [ih (chunk + 1) (acc ++ p.files) f (by simpa using Nat.lt_of_succ_lt_succ hfuel)
        (fun i h => by
          have h2 := hys (i + 1) (by simpa using Nat.succ_lt_succ h)
          rw [show chunk + (i + 1) = chunk + 1 + i by omega] at h2
          simpa using h2)
        (by
          have h2 := hlast
          rw [show chunk + (p :: rest).length = chunk + 1 + rest.length by simp; omega] at h2
          exact h2)
        (fun q hq => hmore q (List.mem_cons_of_mem p hq)) hstop]
      simp

/-- C8 witness: a two-page listing, the first page reporting more chunks
and the second none; both pages' files are concatenated in fetch order. -/
theorem c8_pagination_witness :
    paginate (fun chunk =>
        if chunk = 1 then Except.ok ⟨"yes", [⟨"a", "HA", "LA"⟩]⟩
        else if chunk = 2 then Except.ok ⟨"no", [⟨"b", "HB", "LB"⟩]⟩
        else Except.error "no such chunk") 3 1 [] =
      some (PagResult.done ([] ++ ([⟨"a", "HA", "LA"⟩] ::
        ([] : List (List FileData))).flatten ++ [⟨"b", "HB", "LB"⟩])) :=
  c8_pagination [⟨"yes", [⟨"a", "HA", "LA"⟩]⟩] ⟨"no", [⟨"b", "HB", "LB"⟩]⟩
    (fun chunk =>
        if chunk = 1 then Except.ok ⟨"yes", [⟨"a", "HA", "LA"⟩]⟩
        else if chunk = 2 then Except.ok ⟨"no", [⟨"b", "HB", "LB"⟩]⟩
        else Except.error "no such chunk")
    1 [] 3 (by decide)
    (by
      intro i h
      have h0 : i = 0 := by
        simp at h
        exact h
      subst h0
      rfl)
    rfl (by decide) (by decide)

/-! ## distributed_download_urls result collection
(mediafire.py, lines 165-182)

Each url becomes one sem_download task; asyncio.gather returns one result
per task, placed in the slot of the task that produced it, whatever order
the tasks complete in. We model completion order as an arbitrary list of
task indices and gather as writing each completed task's value into its
own slot; the body of a unit is abstracted as a function from the url to
Except (download_url and everything beneath it), reduced to a bool by the
try/except in sem_download. -/

def sem_download (work : String → Except String Unit) (url : String) : Bool :=
  match work url with
  | Except.ok _ => true
  | Except.error _ => false

def gatherAssemble (n : Nat) (f : Nat → Bool) (order : List Nat) : List (Option Bool) :=
  order.foldl (fun acc i => acc.set i (some (f i))) (List.replicate n none)

def distributed_download_urls (work : String → Except String Unit)
    (urls : List String) (order : List Nat) : List (Option Bool) :=
  gatherAssemble urls.length (fun i => sem_download work (urls.getD i "")) order

theorem foldl_set_length (f : Nat → Bool) :
    ∀ (order : List Nat) (acc : List (Option Bool)),
      (order.foldl (fun a i => a.set i (some (f i))) acc).length = acc.length := by
  intro order
  induction order with
  | nil => intro acc; rfl
  | cons i rest ih =>
      intro acc
      simp only [List.foldl_cons]
      rw [ih (acc.set i (some (f i))), List.length_set]

theorem foldl_set_not_mem (f : Nat → Bool) :
    ∀ (order : List Nat) (acc : List (Option Bool)) (j : Nat), j ∉ order →
      (order.foldl (fun a i => a.set i (some (f i))) acc)[j]? = acc[j]? := by
  intro order
  induction order with
  | nil => intro acc j _; rfl
  | cons i rest ih =>
      intro acc j hj
      have hne : j ≠ i := fun h => hj (h ▸ List.mem_cons_self i rest)
      have hrest : j ∉ rest := fun h => hj (List.mem_cons_of_mem i h)
      simp only [List.foldl_cons]
      rw [ih (acc.set i (some (f i))) j hrest, List.getElem?_set_ne (fun h => hne h.symm)]

theorem foldl_set_mem (f : Nat → Bool) :
    ∀ (order : List Nat) (acc : List (Option Bool)) (j : Nat),
      j ∈ order → j < acc.length →
      (order.foldl (fun a i => a.set i (some (f i))) acc)[j]? = some (some (f j)) := by
  intro order
  induction order with
  | nil => intro acc j hj _; exact absurd hj (List.not_mem_nil j)
  | cons i rest ih =>
      intro acc j hj hlen
      simp only [List.foldl_cons]
      by_cases hr : j ∈ rest
      · exact ih (acc.set i (some (f i))) j hr (by rw [List.length_set]; exact hlen)
      · have hji : j = i := by
          rcases List.mem_cons.mp hj with h | h
          · exact h
          · exact absurd h hr
        subst hji
        rw [foldl_set_not_mem f rest (acc.set j (some (f j))) j hr]
        exact List.getElem?_set_eq_of_lt (some (f j)) hlen

/-- C2: on N input links, for any completion order that covers every task
(gather waits for all of them), the result list has exactly N outcomes and
the slot of task i holds the outcome of the i-th input link. -/
theorem c2_order_correspondence (work : String → Except String Unit)
    (urls : List String) (order : List Nat)
    (hcover : ∀ j, j < urls.length → j ∈ order) :
    (distributed_download_urls work urls order).length = urls.length ∧
    ∀ (i : Nat) (h : i < urls.length),
      (distributed_download_urls work urls order)[i]? =
        some (some (sem_download work urls[i])) := by
  constructor
  · unfold distributed_download_urls gatherAssemble
    rw [foldl_set_length]
    exact List.length_replicate urls.length none
  · intro i h
    unfold distributed_download_urls gatherAssemble
    rw [foldl_set_mem _ order _ i (hcover i h)
      (by rw [List.length_replicate]; exact h)]
    rw [List.getD_eq_getElem?_getD, List.getElem?_eq_getElem h]
    rfl

/-- C2 witness: two links completed in reverse order still yield the
outcomes in input order. -/
theorem c2_order_correspondence_witness :
    (∀ j, j < (["a", "b"] : List String).length → j ∈ [1, 0]) ∧
    (distributed_download_urls (fun _ => Except.ok ()) ["a", "b"] [1, 0])[0]? =
      some (some (sem_download (fun _ => Except.ok ()) (["a", "b"] : List String)[0])) :=
  ⟨by decide,
   (c2_order_correspondence (fun _ => Except.ok ()) ["a", "b"] [1, 0] (by decide)).2 0
     (by decide)⟩

/-- C3: a unit whose work raises is recorded as a failed (False) outcome
in its own slot, and every other unit still appears with its own correct
outcome; the overall call still returns a full result list. -/
theorem c3_failure_isolation (work : String → Except String Unit)
    (urls : List String) (order : List Nat) (j : Nat) (e : String)
    (hcover : ∀ k, k < urls.length → k ∈ order)
    (hj : j < urls.length)
    (hfail : work urls[j] = Except.error e) :
    (distributed_download_urls work urls order).length = urls.length ∧
    (distributed_download_urls work urls order)[j]? = some (some false) ∧
    ∀ (i : Nat) (h : i < urls.length),
      (distributed_download_urls work urls order)[i]? =
        some (some (sem_download work urls[i])) := by
  have hlen : (distributed_download_urls work urls order).length = urls.length := by
    unfold distributed_download_urls gatherAssemble
    rw [foldl_set_length]
    exact List.length_replicate urls.length none
  have hslots : ∀ (i : Nat) (h : i < urls.length),
      (distributed_download_urls work urls order)[i]? =
        some (some (sem_download work urls[i])) := by
    intro i h
    unfold distributed_download_urls gatherAssemble
    rw [foldl_set_mem _ order _ i (hcover i h)
      (by rw [List.length_replicate]; exact h)]
    rw [List.getD_eq_getElem?_getD, List.getElem?_eq_getElem h]
    rfl
  refine ⟨hlen, ?_, hslots⟩
  rw [hslots j hj]
  simp [sem_download, hfail]

/-- C3 witness: the second of two links raises; its slot records False
and the first link still records its own True outcome. -/
theorem c3_failure_isolation_witness :
    ((fun u => if u = "bad" then Except.error "boom" else Except.ok ())
        (["good", "bad"] : List String)[1] = Except.error "boom") ∧
    (distributed_download_urls
        (fun u => if u = "bad" then Except.error "boom" else Except.ok ())
        ["good", "bad"] [1, 0])[1]? = some (some false) :=
  ⟨rfl,
   (c3_failure_isolation
      (fun u => if u = "bad" then Except.error "boom" else Except.ok ())
      ["good", "bad"] [1, 0] 1 "boom" (by decide) (by decide) rfl).2.1⟩

/-! ## Concurrency: the semaphore ceiling
(mediafire.py, distributed_download_urls lines 165-182 and the bare
gather in dnld_folder_items lines 131-135)

The asyncio event loop is modelled as a small-step scheduler over task
programs. A task is a list of atomic steps: acquire the semaphore (blocks
while no permit is free), release it, begin or end a unit of work (a file
download is in flight between beginWork and endWork), or spawn new tasks
(asyncio.gather creating the per-folder dnld_file tasks). A schedule is
an arbitrary list of task indices; each entry runs the next step of that
task if it is enabled. Each sem_download task from
distributed_download_urls is acquire, beginWork, endWork, release (the
async with semaphore block); the dnld_file tasks spawned by the gather
inside dnld_folder_items never touch the semaphore. -/

inductive TStep where
  | acq
  | rel
  | beginWork (uid : Nat)
  | endWork (uid : Nat)
  | spawn (ts : List (List TStep))

structure SysState where
  sem : Nat
  progs : List (List TStep)

def stepTask (st : SysState) (i : Nat) : Option SysState :=
  match st.progs[i]? with
  | none => none
  | some [] => none
  | some (TStep.acq :: rest) =>
      if st.sem = 0 then none else some ⟨st.sem - 1, st.progs.set i rest⟩
  | some (TStep.rel :: rest) => some ⟨st.sem + 1, st.progs.set i rest⟩
  | some (TStep.beginWork _ :: rest) => some ⟨st.sem, st.progs.set i rest⟩
  | some (TStep.endWork _ :: rest) => some ⟨st.sem, st.progs.set i rest⟩
  | some (TStep.spawn ts :: rest) => some ⟨st.sem, st.progs.set i rest ++ ts⟩

def runSched (st : SysState) : List Nat → Option SysState
  | [] => some st
  | i :: rest =>
      match stepTask st i with
      | none => none
      | some st2 => runSched st2 rest

/-- A task is in flight when it has begun its unit of work and not yet
ended it: its next step is endWork. -/
def isInFlight (p : List TStep) : Bool :=
  match p with
  | TStep.endWork _ :: _ => true
  | _ => false

def inflightCount (progs : List (List TStep)) : Nat := progs.countP isInFlight

/-- For sem_download shaped tasks: the task has acquired the semaphore
and not yet released it. -/
def isHolding (p : List TStep) : Bool :=
  match p with
  | TStep.beginWork _ :: _ => true
  | TStep.endWork _ :: _ => true
  | TStep.rel :: _ => true
  | _ => false

/-- The task programs created by distributed_download_urls: one
sem_download per url, work wrapped in the async with semaphore block. -/
def distTasks (n : Nat) : List (List TStep) :=
  (List.range n).map (fun i => [TStep.acq, TStep.beginWork i, TStep.endWork i, TStep.rel])

/-- The residues a sem_download task can be in. -/
def semShape (p : List TStep) : Prop :=
  ∃ u, p = [TStep.acq, TStep.beginWork u, TStep.endWork u, TStep.rel] ∨
       p = [TStep.beginWork u, TStep.endWork u, TStep.rel] ∨
       p = [TStep.endWork u, TStep.rel] ∨
       p = [TStep.rel] ∨ p = []

/-- Invariant: every task is a sem_download residue and the free permits
plus the tasks inside the semaphore block total the capacity. -/
def SchedInv (s : Nat) (st : SysState) : Prop :=
  (∀ p ∈ st.progs, semShape p) ∧ st.sem + st.progs.countP isHolding = s

theorem countP_set (q : List TStep → Bool) :
    ∀ (l : List (List TStep))
      (i : Nat) (a p : List TStep), l[i]? = some p →
      (l.set i a).countP q + (if q p then 1 else 0) =
        l.countP q + (if q a then 1 else 0) := by
  intro l
  induction l with
  | nil => intro i a p hp; simp at hp
  | cons x xs ih =>
      intro i a p hp
      cases i with
      | zero =>
          have hx : p = x := by
            simpa using hp.symm
          subst hx
          simp only [List.set_cons_zero, List.countP_cons]
          omega
      | succ i =>
          have hp2 : xs[i]? = some p := by simpa using hp
          have h2 := ih i a p hp2
          simp only [List.set_cons_succ, List.countP_cons]
          omega

theorem getElem?_lt (l : List (List TStep)) (i : Nat) (p : List TStep)
    (hp : l[i]? = some p) : i < l.length := by
  by_contra hgt
  rw [List.getElem?_eq_none (Nat.le_of_not_lt hgt)] at hp
  exact Option.noConfusion hp

theorem schedInv_step (s : Nat) (st st2 : SysState) (i : Nat)
    (hinv : SchedInv s st) (hs : stepTask st i = some st2) : SchedInv s st2 := by
  rcases hinv with ⟨hshape, hcount⟩
  rcases hp : st.progs[i]? with _ | p
  · rw [stepTask, hp] at hs
    exact Option.noConfusion hs
  · have hmem : p ∈ st.progs := List.getElem?_mem hp
    have hset : ∀ (a : List TStep), semShape a →
        (∀ q ∈ st.progs.set i a, semShape q) := by
      intro a ha q hq
      rcases List.mem_or_eq_of_mem_set hq with h | h
      · exact hshape q h
      · exact h ▸ ha
    rcases hshape p hmem with ⟨u, hcase | hcase | hcase | hcase | hcase⟩ <;> subst hcase
    · simp only [stepTask, hp] at hs
      by_cases hsem : st.sem = 0
      · rw [if_pos hsem] at hs
        exact Option.noConfusion hs
      · rw [if_neg hsem] at hs
        have hst2 := (Option.some.inj hs).symm
        subst hst2
        refine ⟨hset _ ⟨u, Or.inr (Or.inl rfl)⟩, ?_⟩
        have hc := countP_set isHolding st.progs i
          [TStep.beginWork u, TStep.endWork u, TStep.rel] _ hp
        simp [isHolding] at hc
        show st.sem - 1 + List.countP isHolding
          (st.progs.set i [TStep.beginWork u, TStep.endWork u, TStep.rel]) = s
        omega
    · simp only [stepTask, hp] at hs
      have hst2 := (Option.some.inj hs).symm
      subst hst2
      refine ⟨hset _ ⟨u, Or.inr (Or.inr (Or.inl rfl))⟩, ?_⟩
      have hc := countP_set isHolding st.progs i [TStep.endWork u, TStep.rel] _ hp
      simp [isHolding] at hc
      show st.sem + List.countP isHolding (st.progs.set i [TStep.endWork u, TStep.rel]) = s
      omega
    · simp only [stepTask, hp] at hs
      have hst2 := (Option.some.inj hs).symm
      subst hst2
      refine ⟨hset _ ⟨u, Or.inr (Or.inr (Or.inr (Or.inl rfl)))⟩, ?_⟩
      have hc := countP_set isHolding st.progs i [TStep.rel] _ hp
      simp [isHolding] at hc
      show st.sem + List.countP isHolding (st.progs.set i [TStep.rel]) = s
      omega
    · simp only [stepTask, hp] at hs
      have hst2 := (Option.some.inj hs).symm
      subst hst2
      refine ⟨hset _ ⟨u, Or.inr (Or.inr (Or.inr (Or.inr rfl)))⟩, ?_⟩
      have hc := countP_set isHolding st.progs i [] _ hp
      simp [isHolding] at hc
      show st.sem + 1 + List.countP isHolding (st.progs.set i []) = s
      omega
    · simp only [stepTask, hp] at hs
      exact Option.noConfusion hs

theorem schedInv_run (s : Nat) :
    ∀ (sched : List Nat) (st st2 : SysState),
      SchedInv s st → runSched st sched = some st2 → SchedInv s st2 := by
  intro sched
  induction sched with
  | nil =>
      intro st st2 hinv hr
      have h2 := Option.some.inj hr
      exact h2 ▸ hinv
  | cons i rest ih =>
      intro st st2 hinv hr
      rcases hstep : stepTask st i with _ | stm
      · rw [runSched, hstep] at hr
        exact Option.noConfusion hr
      · rw [runSched, hstep] at hr
        exact ih stm st2 (schedInv_step s st stm i hinv hstep) hr

theorem schedInv_init (n s : Nat) : SchedInv s ⟨s, distTasks n⟩ := by
  constructor
  · intro p hp
    rcases List.mem_map.mp hp with ⟨i, _, hi⟩
    exact ⟨i, Or.inl hi.symm⟩
  · have hz : (distTasks n).countP isHolding = 0 := by
      rw [List.countP_eq_zero]
      intro p hp
      rcases List.mem_map.mp hp with ⟨i, _, hi⟩
      rw [← hi]
      simp [isHolding]
    show s + (distTasks n).countP isHolding = s
    rw [hz]
    omega

theorem inflight_le_holding (progs : List (List TStep)) :
    inflightCount progs ≤ progs.countP isHolding := by
  unfold inflightCount
  apply List.countP_mono_left
  intro p _ hin
  rcases p with _ | ⟨step, rest⟩
  · simp [isInFlight] at hin
  · rcases step <;> simp_all [isInFlight, isHolding]

/-- C1 amended: the semaphore in distributed_download_urls does bound the
top-level units: on any schedule of the sem_download tasks, at most
simultaneous of them are between acquire and release, hence at most that
many units of work are in flight. -/
theorem c1_top_level_ceiling (n s : Nat) (sched : List Nat) (st : SysState)
    (h : runSched ⟨s, distTasks n⟩ sched = some st) :
    inflightCount st.progs ≤ s := by
  have hinv := schedInv_run s sched ⟨s, distTasks n⟩ st (schedInv_init n s) h
  have h1 := inflight_le_holding st.progs
  have h2 := hinv.2
  omega

/-- C1 witness: two sem_download tasks under capacity 1; after the first
acquires and begins, at most one unit is in flight. -/
theorem c1_top_level_ceiling_witness :
    runSched ⟨1, distTasks 2⟩ [0, 0] =
      some ⟨0, [[TStep.endWork 0, TStep.rel],
                [TStep.acq, TStep.beginWork 1, TStep.endWork 1, TStep.rel]]⟩ ∧
    inflightCount [[TStep.endWork 0, TStep.rel],
                   [TStep.acq, TStep.beginWork 1, TStep.endWork 1, TStep.rel]] ≤ 1 :=
  ⟨rfl, c1_top_level_ceiling 2 1 [0, 0]
    ⟨0, [[TStep.endWork 0, TStep.rel],
         [TStep.acq, TStep.beginWork 1, TStep.endWork 1, TStep.rel]]⟩ rfl⟩

/-- The claim of a single global admission gate, as stated: however the
tasks interleave, never more than the capacity many units are in flight. -/
def concurrencyBounded (s : Nat) (tasks : List (List TStep)) : Prop :=
  ∀ (sched : List Nat) (st : SysState),
    runSched ⟨s, tasks⟩ sched = some st → inflightCount st.progs ≤ s

/-- One sem_download unit holding the single permit whose folder
expansion gathers two dnld_file tasks that never touch the semaphore,
exactly as the bare asyncio.gather in dnld_folder_items does. -/
def folderScenario : List (List TStep) :=
  [[TStep.acq,
    TStep.spawn [[TStep.beginWork 1, TStep.endWork 1],
                 [TStep.beginWork 2, TStep.endWork 2]],
    TStep.rel]]

/-- C1 counterexample: with capacity 1, the folder unit acquires the only
permit, spawns its two file tasks, and both begin: two units of work are
in flight, so the global ceiling does not bound the batch spawned inside
a folder expansion. -/
theorem c1_counterexample : ¬ concurrencyBounded 1 folderScenario := by
  intro h
  have h2 := h [0, 0, 1, 2]
    ⟨0, [[TStep.rel], [TStep.endWork 1], [TStep.endWork 2]]⟩ rfl
  exact absurd h2 (by decide)
